import Mathlib

/-!
Verification of the Wind-Analyzer energy-yield engine (src/app.py).

The numerical core of the program runs on IEEE-754 doubles through numpy.
We embed that arithmetic shallowly: finite values are modelled by exact real
numbers (rounding is ignored), while the discrete IEEE semantics that the
program can actually reach — division by zero, `0.0 ** negative` producing
`inf`, `inf / inf` producing `nan`, comparisons against `nan` — are modelled
faithfully by the four-constructor type `EFloat` below.  Signed zeros are not
modelled (every zero is `+0`), which matches all values arising in this
program (grid speeds, pdf values and sums are produced from non-negative
inputs).
-/

noncomputable section

open Classical

/-- A numpy double, with rounding abstracted away: either a finite real,
`+inf`, `-inf`, or `nan`. -/
inductive EFloat : Type where
  | fin : ℝ → EFloat
  | inf : EFloat
  | ninf : EFloat
  | nan : EFloat

/-- IEEE addition. -/
def EFloat.add : EFloat → EFloat → EFloat
  | .fin a, .fin b => .fin (a + b)
  | .fin _, .inf => .inf
  | .inf, .fin _ => .inf
  | .fin _, .ninf => .ninf
  | .ninf, .fin _ => .ninf
  | .inf, .inf => .inf
  | .ninf, .ninf => .ninf
  | _, _ => .nan

/-- IEEE negation. -/
def EFloat.neg : EFloat → EFloat
  | .fin a => .fin (-a)
  | .inf => .ninf
  | .ninf => .inf
  | .nan => .nan

/-- IEEE subtraction. -/
def EFloat.sub (x y : EFloat) : EFloat := x.add y.neg

/-- IEEE multiplication (`inf * 0 = nan`). -/
def EFloat.mul : EFloat → EFloat → EFloat
  | .fin a, .fin b => .fin (a * b)
  | .fin a, .inf => if 0 < a then .inf else if a < 0 then .ninf else .nan
  | .inf, .fin b => if 0 < b then .inf else if b < 0 then .ninf else .nan
  | .fin a, .ninf => if 0 < a then .ninf else if a < 0 then .inf else .nan
  | .ninf, .fin b => if 0 < b then .ninf else if b < 0 then .inf else .nan
  | .inf, .inf => .inf
  | .ninf, .ninf => .inf
  | .inf, .ninf => .ninf
  | .ninf, .inf => .ninf
  | _, _ => .nan

/-- IEEE division (zeros are `+0`, so `a / 0 = +inf` for `a > 0`;
`inf / inf = nan`, finite `/ inf = 0`). -/
def EFloat.div : EFloat → EFloat → EFloat
  | .fin a, .fin b =>
      if b = 0 then (if a = 0 then .nan else if 0 < a then .inf else .ninf)
      else .fin (a / b)
  | .fin _, .inf => .fin 0
  | .fin _, .ninf => .fin 0
  | .inf, .fin b => if 0 ≤ b then .inf else .ninf
  | .ninf, .fin b => if 0 ≤ b then .ninf else .inf
  | _, _ => .nan

/-- numpy `**` on doubles: real power for positive base; `0 ** y` is `0`, `1`
or `+inf` as `y` is positive, zero or negative; negative base gives a real
value for integer exponents and `nan` otherwise.  (For a negative base with
integer exponent, `Real.rpow` agrees with the signed integer power, so the
finite branch reuses it.)  Infinite and `nan` operands only occur outside the
paths exercised by this program and are mapped to `nan`. -/
def EFloat.pow : EFloat → EFloat → EFloat
  | .fin a, .fin b =>
      if 0 < a then .fin (a ^ b)
      else if a = 0 then (if 0 < b then .fin 0 else if b = 0 then .fin 1 else .inf)
      else if ∃ n : ℤ, (n : ℝ) = b then .fin (a ^ b) else .nan
  | _, _ => .nan

/-- IEEE exponential: `exp (-inf) = 0`, `exp inf = inf`. -/
def EFloat.exp : EFloat → EFloat
  | .fin a => .fin (Real.exp a)
  | .inf => .inf
  | .ninf => .fin 0
  | .nan => .nan

/-- Strict `>` as Python evaluates it on doubles: any comparison involving
`nan` is false. -/
def EFloat.gtP : EFloat → EFloat → Prop
  | .fin a, .fin b => b < a
  | .inf, .fin _ => True
  | .inf, .ninf => True
  | .fin _, .ninf => True
  | _, _ => False

/-- `np.sum`: sequential accumulation starting from `0.0`. -/
def np_sum (l : List EFloat) : EFloat := l.foldl EFloat.add (.fin 0)

/-! Summation lemmas for `np_sum`. -/

/-- A list of floats is "all finite" when every element is some `fin r`. -/
def AllFin (l : List EFloat) : Prop := ∀ x ∈ l, ∃ r : ℝ, x = .fin r

/-!
The speed grid of the program, line 152 of src/app.py:
`v_values = np.arange(0.0, 30.1, 0.5)`, which yields
`⌈(30.1 - 0.0)/0.5⌉ = 61` samples `0.0 + i * 0.5` for `i = 0, …, 60`.
-/

/-- The shared speed grid: 61 points `0.0, 0.5, …, 30.0` (the start value
`0.0` is elided from `start + i * step`). -/
def v_values : List ℝ := (List.range 61).map (fun i : ℕ => (i : ℝ) * 0.5)

/-- Line 173: `dv = v_values[1] - v_values[0]` (out-of-range indexing cannot
occur and the default value is irrelevant). -/
def dv : ℝ := v_values.getD 1 0 - v_values.getD 0 0

/-!
The Weibull density, lines 168-170 of src/app.py:

    def weibull_pdf(v, k, c):
        v = np.array(v, dtype=float)
        return (k / c) * (v / c) ** (k - 1) * np.exp(-(v / c) ** k)

evaluated elementwise over the grid.  There is no special-casing anywhere:
at `v = 0` with `k < 1`, numpy evaluates `0.0 ** (k - 1)` to `+inf`.
-/

/-- One elementwise evaluation of `weibull_pdf` in float semantics. -/
def weibull_pdf (v k c : EFloat) : EFloat :=
  ((k.div c).mul (((v.div c).pow (k.sub (.fin 1))))).mul (((v.div c).pow k).neg.exp)

/-- The same formula in exact real arithmetic (`^` is `Real.rpow`); it agrees
with `weibull_pdf` whenever the float evaluation stays finite. -/
def weibull_pdf_real (v k c : ℝ) : ℝ :=
  (k / c) * (v / c) ^ (k - 1) * Real.exp (-(v / c) ^ k)

/-!
The density pipeline, lines 172-176 of src/app.py:

    pdf_values = weibull_pdf(v_values, k, c)
    dv = v_values[1] - v_values[0]
    normalization = np.sum(pdf_values * dv)
    if normalization > 0:
        pdf_values = pdf_values / normalization
-/

/-- Line 172: the raw sampled density. -/
def pdf_values_raw (k c : ℝ) : List EFloat :=
  v_values.map (fun v => weibull_pdf (.fin v) (.fin k) (.fin c))

/-- Line 174: `normalization = np.sum(pdf_values * dv)`. -/
def normalization (k c : ℝ) : EFloat :=
  np_sum ((pdf_values_raw k c).map (fun x => x.mul (.fin dv)))

/-- Lines 175-176: the density samples after the conditional renormalization. -/
def pdf_values (k c : ℝ) : List EFloat :=
  if (normalization k c).gtP (.fin 0) then
    (pdf_values_raw k c).map (fun x => x.div (normalization k c))
  else pdf_values_raw k c

/-- The observable of the normalization property: `Σ density[i] · step` over
the final density samples. -/
def density_sum (k c : ℝ) : EFloat :=
  np_sum ((pdf_values k c).map (fun x => x.mul (.fin dv)))

/-- The raw density samples in exact real arithmetic. -/
def pdf_real_list (k c : ℝ) : List ℝ := v_values.map (fun v => weibull_pdf_real v k c)

/-- The normalization constant in exact real arithmetic. -/
def normalization_real (k c : ℝ) : ℝ := ((pdf_real_list k c).map (fun x => x * dv)).sum

/-!
The degenerate path: for `0 < k < 1` numpy evaluates `0.0 ** (k-1)` at the
first grid point to `+inf`; the normalization sum becomes `+inf`, the guard
`normalization > 0` still passes, the first renormalized sample becomes
`inf / inf = nan` and the renormalized sum is `nan`.
-/

/-- The tail of the grid (all strictly positive speeds). -/
def v_tail : List ℝ := (List.range 60).map (fun i : ℕ => ((i : ℝ) + 1) * 0.5)

/-!
The turbine power curve, lines 56-83 and 155-157 of src/app.py: a fixed
lookup table `V90_POWER_CURVE` queried through `np.interp`, then scaled by
`rated_power_kw / max(V90_POWER_CURVE.values())`.
-/

/-- The V90 lookup table, as the ordered (speed, power) pairs of the dict. -/
def V90_POWER_CURVE : List (ℝ × ℝ) :=
  [(0, 0), (1, 0), (2, 0), (3, 50), (4, 120), (5, 250), (6, 480), (7, 750),
   (8, 1100), (9, 1500), (10, 1800), (11, 2000), (12, 2000), (13, 2000),
   (14, 2000), (15, 2000), (16, 2000), (17, 2000), (18, 2000), (19, 2000),
   (20, 2000)]

/-- `np.interp(v, xs, fs)` for a table of (x, f) pairs with increasing x:
linear interpolation between the bracketing points, clamping to the first /
last f-value outside the x-range. -/
def interp (v : ℝ) : List (ℝ × ℝ) → ℝ
  | [] => 0
  | [p] => p.2
  | p :: q :: rest =>
      if v ≤ p.1 then p.2
      else if v ≤ q.1 then p.2 + (q.2 - p.2) * ((v - p.1) / (q.1 - p.1))
      else interp v (q :: rest)

/-- Lines 80-83: `real_power_curve(v) = np.interp(v, speeds, powers)`. -/
def real_power_curve (v : ℝ) : ℝ := interp v V90_POWER_CURVE

/-- Python's `max` over a list of floats (the empty case raises in Python and
never occurs here; it is mapped to 0). -/
def pymax : List ℝ → ℝ
  | [] => 0
  | x :: xs => xs.foldl max x

/-- Line 155: `base_rated = max(V90_POWER_CURVE.values())`. -/
def base_rated : ℝ := pymax (V90_POWER_CURVE.map Prod.snd)

/-- Line 156: `scale_factor = rated_power_kw / base_rated if base_rated > 0 else 1.0`. -/
def scale_factor (rated : ℝ) : ℝ := if 0 < base_rated then rated / base_rated else 1

/-- Line 157: the power samples over the grid (kW). -/
def power_values (rated : ℝ) : List ℝ :=
  v_values.map (fun v => real_power_curve v * scale_factor rated)

/-- The code's lookup-curve construction with the table as a parameter
(src/app.py fixes `table = V90_POWER_CURVE`): interpolate, then scale by
`rated / max(powers)` when that maximum is positive. -/
def scale_factor_of (table : List (ℝ × ℝ)) (rated : ℝ) : ℝ :=
  if 0 < pymax (table.map Prod.snd) then rated / pymax (table.map Prod.snd) else 1

/-- A scaled lookup-curve query, generalizing `real_power_curve(v) * scale_factor`. -/
def scaled_lookup (table : List (ℝ × ℝ)) (rated v : ℝ) : ℝ :=
  interp v table * scale_factor_of table rated

/-!
The yield estimator, lines 179-184 of src/app.py:

    expected_power_kw = np.sum(power_values * pdf_values * dv)
    aep_kwh = expected_power_kw * 8760.0
    capacity_factor = (expected_power_kw / rated_power_kw) if rated_power_kw > 0 else 0.0
    contribution_kw = power_values * pdf_values
-/

/-- Line 179, with the power and density sample arrays as inputs (the power
samples are finite reals, the density samples arbitrary floats). -/
def expected_power_kw (power : List ℝ) (density : List EFloat) : EFloat :=
  np_sum ((List.zipWith EFloat.mul (power.map .fin) density).map (fun x => x.mul (.fin dv)))

/-- Line 180. -/
def aep_kwh (e : EFloat) : EFloat := e.mul (.fin 8760)

/-- Line 181. -/
def capacity_factor (e : EFloat) (rated : ℝ) : EFloat :=
  if 0 < rated then e.div (.fin rated) else .fin 0

/-- Line 184. -/
def contribution_kw (power : List ℝ) (density : List EFloat) : List EFloat :=
  List.zipWith EFloat.mul (power.map .fin) density

/-!
The full pipeline, lines 152-184 of src/app.py, as a function of every
sidebar input that reaches the numerical section.  The cut-in and cut-out
sliders (lines 122-136) are read from the UI, and the computation below
line 138 never mentions them.
-/

/-- Lines 164-166: the Rayleigh-like branch derives `k = 2.0`,
`c = avg_wind_speed * math.sqrt(2.0 / math.pi)`. -/
def rayleigh_c (m : ℝ) : ℝ := m * Real.sqrt (2 / Real.pi)

/-- The outputs of one estimation run that depend on the numerical section. -/
structure YieldResult where
  power_values : List ℝ
  pdf_values : List EFloat
  expected_power_kw : EFloat
  aep_kwh : EFloat
  capacity_factor : EFloat
  contribution_kw : List EFloat

/-- The numerical section of src/app.py as one function of its inputs. -/
def analyze (loc_k loc_c avg_wind rated cut_in cut_out : ℝ)
    (use_weibull : Bool) : YieldResult :=
  let k := if use_weibull then loc_k else 2
  let c := if use_weibull then loc_c else rayleigh_c avg_wind
  let pv := power_values rated
  let pdf := pdf_values k c
  let e := expected_power_kw pv pdf
  { power_values := pv
    pdf_values := pdf
    expected_power_kw := e
    aep_kwh := aep_kwh e
    capacity_factor := capacity_factor e rated
    contribution_kw := contribution_kw pv pdf }

/-- The capacity factor the pipeline computes, as a function of the density
samples (finite reals) and the rated power. -/
def cf_pipeline (density : List ℝ) (rated : ℝ) : EFloat :=
  capacity_factor (expected_power_kw (power_values rated) (density.map .fin)) rated

/-- The rated-power-independent part of the capacity factor: the expected
power computed against the unscaled reference curve. -/
def unscaled_expected (density : List ℝ) : ℝ :=
  ((List.zipWith (fun a b => a * b) (v_values.map real_power_curve) density).map
    (fun x => x * dv)).sum

/-!
## Lemmas and claim theorems
-/

/-! Basic evaluation lemmas for the `EFloat` operations. -/

theorem EFloat.add_fin_fin (a b : ℝ) : (EFloat.fin a).add (.fin b) = .fin (a + b) := rfl

theorem EFloat.add_nan (x : EFloat) : EFloat.nan.add x = .nan := by
  cases x <;> rfl

theorem EFloat.add_inf_fin (b : ℝ) : EFloat.inf.add (.fin b) = .inf := rfl

theorem EFloat.mul_fin_fin (a b : ℝ) : (EFloat.fin a).mul (.fin b) = .fin (a * b) := rfl

theorem EFloat.mul_inf_fin {b : ℝ} (h : 0 < b) : EFloat.inf.mul (.fin b) = .inf := by
  simp [EFloat.mul, h]

theorem EFloat.mul_nan_fin (b : ℝ) : EFloat.nan.mul (.fin b) = .nan := rfl

theorem EFloat.neg_fin (a : ℝ) : (EFloat.fin a).neg = .fin (-a) := rfl

theorem EFloat.sub_fin_fin (a b : ℝ) : (EFloat.fin a).sub (.fin b) = .fin (a - b) := by
  simp [EFloat.sub, EFloat.neg, EFloat.add, sub_eq_add_neg]

theorem EFloat.div_fin_fin {b : ℝ} (a : ℝ) (h : b ≠ 0) :
    (EFloat.fin a).div (.fin b) = .fin (a / b) := by
  simp [EFloat.div, h]

theorem EFloat.div_fin_inf (a : ℝ) : (EFloat.fin a).div .inf = .fin 0 := rfl

theorem EFloat.div_inf_inf : EFloat.inf.div .inf = .nan := rfl

theorem EFloat.pow_fin_fin {a : ℝ} (b : ℝ) (h : 0 < a) :
    (EFloat.fin a).pow (.fin b) = .fin (a ^ b) := by
  simp [EFloat.pow, h]

theorem EFloat.pow_zero_fin_pos {b : ℝ} (h : 0 < b) :
    (EFloat.fin 0).pow (.fin b) = .fin 0 := by
  simp [EFloat.pow, h]

theorem EFloat.pow_zero_fin_zero : (EFloat.fin 0).pow (.fin 0) = .fin 1 := by
  simp [EFloat.pow]

theorem EFloat.pow_zero_fin_neg {b : ℝ} (h : b < 0) :
    (EFloat.fin 0).pow (.fin b) = .inf := by
  simp [EFloat.pow, h, not_lt.mpr h.le, h.ne]

theorem EFloat.exp_fin (a : ℝ) : (EFloat.fin a).exp = .fin (Real.exp a) := rfl

theorem EFloat.gtP_fin_fin {a b : ℝ} : (EFloat.fin a).gtP (.fin b) ↔ b < a := Iff.rfl

theorem EFloat.gtP_inf_fin (b : ℝ) : EFloat.inf.gtP (.fin b) := trivial

theorem EFloat.fin_ne_inf (a : ℝ) : EFloat.fin a ≠ .inf := by simp

theorem EFloat.fin_ne_nan (a : ℝ) : EFloat.fin a ≠ .nan := by simp

theorem foldl_add_fin (l : List ℝ) : ∀ s : ℝ,
    (l.map EFloat.fin).foldl EFloat.add (.fin s) = .fin (s + l.sum) := by
  induction l with
  | nil => intro s; simp
  | cons a t ih =>
      intro s
      simp only [List.map_cons, List.foldl_cons, EFloat.add_fin_fin, ih, List.sum_cons]
      ring_nf

theorem np_sum_map_fin (l : List ℝ) : np_sum (l.map EFloat.fin) = .fin l.sum := by
  simp [np_sum, foldl_add_fin l 0]

theorem foldl_add_inf (l : List EFloat) (h : AllFin l) :
    l.foldl EFloat.add .inf = .inf := by
  induction l with
  | nil => rfl
  | cons a t ih =>
      obtain ⟨r, hr⟩ := h a (List.mem_cons_self a t)
      subst hr
      simpa using ih (fun x hx => h x (List.mem_cons_of_mem _ hx))

theorem foldl_add_nan (l : List EFloat) : l.foldl EFloat.add .nan = .nan := by
  induction l with
  | nil => rfl
  | cons a t ih => simpa [EFloat.add_nan] using ih

theorem np_sum_inf_cons (l : List EFloat) (h : AllFin l) : np_sum (.inf :: l) = .inf := by
  simpa [np_sum] using foldl_add_inf l h

theorem np_sum_nan_cons (l : List EFloat) : np_sum (.nan :: l) = .nan := by
  simpa [np_sum] using foldl_add_nan l

theorem v_values_length : v_values.length = 61 := by
  rw [v_values, List.length_map, List.length_range]

theorem dv_eq : dv = 0.5 := by
  have h : List.range 61 = 0 :: 1 :: List.drop 2 (List.range 61) := by decide
  rw [dv, v_values, h, List.map_cons, List.map_cons, List.getD_cons_succ,
    List.getD_cons_zero, List.getD_cons_zero]
  norm_num

theorem v_values_cons :
    v_values = (0 : ℝ) :: (List.range 60).map (fun i : ℕ => ((i : ℝ) + 1) * 0.5) := by
  rw [v_values, List.range_succ_eq_map, List.map_cons, List.map_map]
  refine congrArg₂ _ (by norm_num) (List.map_congr_left ?_)
  intro a _
  simp only [Function.comp, Nat.succ_eq_add_one]
  push_cast
  ring

theorem mem_v_values_nonneg {v : ℝ} (h : v ∈ v_values) : 0 ≤ v := by
  rw [v_values] at h
  obtain ⟨i, _, rfl⟩ := List.mem_map.mp h
  positivity

theorem zero_mem_v_values : (0 : ℝ) ∈ v_values := by
  rw [v_values_cons]; exact List.mem_cons_self _ _

theorem half_mem_v_values : (0.5 : ℝ) ∈ v_values := by
  rw [v_values]
  exact List.mem_map.mpr ⟨1, List.mem_range.mpr (by norm_num), by norm_num⟩

theorem weibull_pdf_fin_of_pos {v c : ℝ} (k : ℝ) (hv : 0 < v) (hc : 0 < c) :
    weibull_pdf (.fin v) (.fin k) (.fin c) = .fin (weibull_pdf_real v k c) := by
  have hvc : 0 < v / c := div_pos hv hc
  rw [weibull_pdf, EFloat.div_fin_fin v hc.ne', EFloat.div_fin_fin k hc.ne',
    EFloat.sub_fin_fin, EFloat.pow_fin_fin (k - 1) hvc, EFloat.pow_fin_fin k hvc,
    EFloat.neg_fin, EFloat.exp_fin, EFloat.mul_fin_fin, EFloat.mul_fin_fin,
    weibull_pdf_real]

theorem weibull_pdf_fin_of_one_le {v k c : ℝ} (hv : 0 ≤ v) (hk : 1 ≤ k) (hc : 0 < c) :
    weibull_pdf (.fin v) (.fin k) (.fin c) = .fin (weibull_pdf_real v k c) := by
  rcases hv.lt_or_eq with hv' | hv'
  · exact weibull_pdf_fin_of_pos k hv' hc
  · subst hv'
    have h0 : (0 : ℝ) / c = 0 := zero_div c
    rcases hk.lt_or_eq with hk' | hk'
    · -- k > 1 : `0 ** (k-1) = 0` and `0 ** k = 0` on both sides
      rw [weibull_pdf, EFloat.div_fin_fin 0 hc.ne', EFloat.div_fin_fin k hc.ne', h0,
        EFloat.sub_fin_fin, EFloat.pow_zero_fin_pos (by linarith : (0:ℝ) < k - 1),
        EFloat.pow_zero_fin_pos (by linarith : (0:ℝ) < k),
        EFloat.neg_fin, EFloat.exp_fin, EFloat.mul_fin_fin, EFloat.mul_fin_fin,
        weibull_pdf_real, h0,
        Real.zero_rpow (by linarith : k - 1 ≠ 0), Real.zero_rpow (by linarith : k ≠ 0)]
    · -- k = 1 : `0 ** 0 = 1` on both sides
      subst hk'
      rw [weibull_pdf, EFloat.div_fin_fin 0 hc.ne', EFloat.div_fin_fin 1 hc.ne', h0,
        EFloat.sub_fin_fin, sub_self, EFloat.pow_zero_fin_zero,
        EFloat.pow_zero_fin_pos (by norm_num : (0:ℝ) < 1),
        EFloat.neg_fin, EFloat.exp_fin, EFloat.mul_fin_fin, EFloat.mul_fin_fin,
        weibull_pdf_real, h0, sub_self, Real.rpow_zero,
        Real.rpow_one]

theorem weibull_pdf_zero_inf {k c : ℝ} (hk0 : 0 < k) (hk1 : k < 1) (hc : 0 < c) :
    weibull_pdf (.fin 0) (.fin k) (.fin c) = .inf := by
  have h0 : (0 : ℝ) / c = 0 := zero_div c
  have hkc : 0 < k / c := div_pos hk0 hc
  rw [weibull_pdf, EFloat.div_fin_fin 0 hc.ne', EFloat.div_fin_fin k hc.ne', h0,
    EFloat.sub_fin_fin, EFloat.pow_zero_fin_neg (by linarith : k - 1 < 0),
    EFloat.pow_zero_fin_pos hk0, EFloat.neg_fin, EFloat.exp_fin]
  rw [show (EFloat.fin (k / c)).mul .inf = .inf by simp [EFloat.mul, hkc]]
  simp [EFloat.mul, Real.exp_pos]

theorem weibull_pdf_real_nonneg {v k c : ℝ} (hv : 0 ≤ v) (hk : 0 ≤ k) (hc : 0 < c) :
    0 ≤ weibull_pdf_real v k c := by
  have h1 : 0 ≤ k / c := div_nonneg hk hc.le
  have h2 : (0:ℝ) ≤ (v / c) ^ (k - 1) := Real.rpow_nonneg (div_nonneg hv hc.le) _
  exact mul_nonneg (mul_nonneg h1 h2) (Real.exp_pos _).le

theorem weibull_pdf_real_pos {v k c : ℝ} (hv : 0 < v) (hk : 0 < k) (hc : 0 < c) :
    0 < weibull_pdf_real v k c := by
  have h1 : 0 < k / c := div_pos hk hc
  have h2 : (0:ℝ) < (v / c) ^ (k - 1) := Real.rpow_pos_of_pos (div_pos hv hc) _
  exact mul_pos (mul_pos h1 h2) (Real.exp_pos _)

theorem pdf_values_raw_eq_map_fin {k c : ℝ} (hk : 1 ≤ k) (hc : 0 < c) :
    pdf_values_raw k c = (pdf_real_list k c).map .fin := by
  rw [pdf_values_raw, pdf_real_list, List.map_map]
  exact List.map_congr_left fun v hv => by
    simpa [Function.comp] using weibull_pdf_fin_of_one_le (mem_v_values_nonneg hv) hk hc

theorem normalization_eq_fin {k c : ℝ} (hk : 1 ≤ k) (hc : 0 < c) :
    normalization k c = .fin (normalization_real k c) := by
  rw [normalization, pdf_values_raw_eq_map_fin hk hc, List.map_map]
  have h : ((fun x => EFloat.mul x (.fin dv)) ∘ EFloat.fin) =
      EFloat.fin ∘ (fun x : ℝ => x * dv) := by
    funext a; simp [Function.comp, EFloat.mul_fin_fin]
  rw [h, ← List.map_map, np_sum_map_fin, normalization_real]

theorem normalization_real_pos {k c : ℝ} (hk : 1 ≤ k) (hc : 0 < c) :
    0 < normalization_real k c := by
  rw [normalization_real, pdf_real_list, List.map_map, v_values_cons, List.map_cons,
    List.sum_cons]
  have hd : dv = 0.5 := dv_eq
  have h1 : 0 ≤ ((fun x => x * dv) ∘ fun v => weibull_pdf_real v k c) 0 := by
    simp only [Function.comp]
    exact mul_nonneg (weibull_pdf_real_nonneg le_rfl (by linarith) hc) (by rw [hd]; norm_num)
  have h2 : 0 < (((List.range 60).map fun i : ℕ => ((i : ℝ) + 1) * 0.5).map
      ((fun x => x * dv) ∘ fun v => weibull_pdf_real v k c)).sum := by
    apply List.sum_pos
    · intro x hx
      obtain ⟨v, hv, rfl⟩ := List.mem_map.mp hx
      obtain ⟨i, _, rfl⟩ := List.mem_map.mp hv
      simp only [Function.comp]
      exact mul_pos (weibull_pdf_real_pos (by positivity) (by linarith) hc)
        (by rw [hd]; norm_num)
    · simp
  linarith

theorem sum_map_div_mul (l : List ℝ) (N d : ℝ) :
    (l.map (fun x => x / N * d)).sum = (l.map (fun x => x * d)).sum * N⁻¹ := by
  rw [← List.sum_map_mul_right]
  exact congrArg _ (List.map_congr_left (fun a _ => by ring))

theorem density_sum_eq_one {k c : ℝ} (hk : 1 ≤ k) (hc : 0 < c) :
    density_sum k c = .fin 1 := by
  have hN := normalization_eq_fin hk hc
  have hpos := normalization_real_pos hk hc
  have hif : (normalization k c).gtP (.fin 0) := by
    rw [hN]; exact EFloat.gtP_fin_fin.mpr hpos
  rw [density_sum, pdf_values, if_pos hif, hN, pdf_values_raw_eq_map_fin hk hc,
    List.map_map, List.map_map]
  have h : (((fun x => EFloat.mul x (.fin dv)) ∘
      (fun x => EFloat.div x (.fin (normalization_real k c)))) ∘ EFloat.fin) =
      EFloat.fin ∘ (fun x : ℝ => x / normalization_real k c * dv) := by
    funext a
    simp [Function.comp, EFloat.div_fin_fin a hpos.ne', EFloat.mul_fin_fin]
  rw [h, ← List.map_map, np_sum_map_fin, sum_map_div_mul]
  rw [show ((pdf_real_list k c).map fun x => x * dv).sum = normalization_real k c from rfl]
  rw [mul_inv_cancel₀ hpos.ne']

theorem mem_v_tail_pos {v : ℝ} (h : v ∈ v_tail) : 0 < v := by
  obtain ⟨i, _, rfl⟩ := List.mem_map.mp h
  positivity

theorem pdf_values_raw_half :
    pdf_values_raw (1/2) 1 = .inf ::
      v_tail.map (fun v => weibull_pdf (.fin v) (.fin (1/2)) (.fin 1)) := by
  rw [pdf_values_raw, v_values_cons, List.map_cons,
    weibull_pdf_zero_inf (by norm_num) (by norm_num) one_pos, v_tail]

theorem normalization_half : normalization (1/2) 1 = .inf := by
  rw [normalization, pdf_values_raw_half, List.map_cons,
    EFloat.mul_inf_fin (by rw [dv_eq]; norm_num)]
  apply np_sum_inf_cons
  intro x hx
  rw [List.map_map] at hx
  obtain ⟨v, hv, rfl⟩ := List.mem_map.mp hx
  obtain ⟨r, hr⟩ : ∃ r, weibull_pdf (.fin v) (.fin (1/2)) (.fin 1) = .fin r :=
    ⟨_, weibull_pdf_fin_of_pos _ (mem_v_tail_pos hv) one_pos⟩
  refine ⟨r * dv, ?_⟩
  simp only [Function.comp]
  rw [hr, EFloat.mul_fin_fin]

theorem density_sum_half_nan : density_sum (1/2) 1 = .nan := by
  have hif : (normalization (1/2) 1).gtP (.fin 0) := by
    rw [normalization_half]; exact EFloat.gtP_inf_fin 0
  rw [density_sum, pdf_values, if_pos hif, normalization_half, pdf_values_raw_half,
    List.map_cons, List.map_cons, EFloat.div_inf_inf,
    show EFloat.nan.mul (.fin dv) = .nan from rfl]
  apply np_sum_nan_cons

/-! `pymax` facts. -/

theorem init_le_foldl_max (xs : List ℝ) : ∀ a : ℝ, a ≤ xs.foldl max a := by
  induction xs with
  | nil => intro a; exact le_refl a
  | cons x t ih => intro a; exact le_trans (le_max_left a x) (ih (max a x))

theorem mem_le_foldl_max (xs : List ℝ) : ∀ (a b : ℝ), b ∈ xs → b ≤ xs.foldl max a := by
  induction xs with
  | nil => intro a b h; cases h
  | cons x t ih =>
      intro a b h
      rcases List.mem_cons.mp h with rfl | h'
      · exact le_trans (le_max_right a b) (init_le_foldl_max t _)
      · exact ih _ b h'

theorem le_pymax_of_mem {l : List ℝ} {b : ℝ} (h : b ∈ l) : b ≤ pymax l := by
  cases l with
  | nil => cases h
  | cons x t =>
      rcases List.mem_cons.mp h with rfl | h'
      · exact init_le_foldl_max t b
      · exact mem_le_foldl_max t x b h'

theorem pymax_nonneg {l : List ℝ} (hne : l ≠ []) (h : ∀ x ∈ l, 0 ≤ x) : 0 ≤ pymax l := by
  cases l with
  | nil => exact absurd rfl hne
  | cons x t => exact le_trans (h x (List.mem_cons_self x t)) (init_le_foldl_max t x)

theorem base_rated_eq : base_rated = 2000 := by
  rw [base_rated, V90_POWER_CURVE]
  simp only [List.map_cons, List.map_nil, pymax, List.foldl_cons, List.foldl_nil]
  norm_num

theorem scale_factor_eq (rated : ℝ) : scale_factor rated = rated / 2000 := by
  rw [scale_factor, base_rated_eq, if_pos (by norm_num : (0:ℝ) < 2000)]

/-! Traversal lemmas for `interp` over a table with strictly increasing speeds. -/

theorem chain_head_le_getLastD :
    ∀ (l : List (ℝ × ℝ)) (p : ℝ × ℝ),
      List.Chain' (fun a b : ℝ × ℝ => a.1 < b.1) (p :: l) → p.1 ≤ (l.getLastD p).1 := by
  intro l
  induction l with
  | nil => intro p _; exact le_refl _
  | cons q t ih =>
      intro p h
      rw [List.getLastD_cons]
      obtain ⟨h1, h2⟩ := List.chain'_cons.mp h
      exact le_trans h1.le (ih q h2)

theorem chain_head_lt_getLastD (p q : ℝ × ℝ) (t : List (ℝ × ℝ))
    (h : List.Chain' (fun a b : ℝ × ℝ => a.1 < b.1) (p :: q :: t)) :
    p.1 < ((q :: t).getLastD p).1 := by
  rw [List.getLastD_cons]
  obtain ⟨h1, h2⟩ := List.chain'_cons.mp h
  exact lt_of_lt_of_le h1 (chain_head_le_getLastD t q h2)

theorem chain_lt_getD :
    ∀ (t : List (ℝ × ℝ)) (q : ℝ × ℝ) (m : ℕ),
      List.Chain' (fun a b : ℝ × ℝ => a.1 < b.1) (q :: t) → m < t.length →
      q.1 < (t.getD m (0, 0)).1 := by
  intro t
  induction t with
  | nil => intro q m _ hm; simp at hm
  | cons r t2 ih =>
      intro q m h hm
      obtain ⟨h1, h2⟩ := List.chain'_cons.mp h
      cases m with
      | zero => simpa using h1
      | succ m2 =>
          rw [List.getD_cons_succ]
          exact lt_trans h1 (ih r m2 h2 (by simpa using hm))

theorem interp_cons₂ (v : ℝ) (p q : ℝ × ℝ) (t : List (ℝ × ℝ)) :
    interp v (p :: q :: t) =
      if v ≤ p.1 then p.2
      else if v ≤ q.1 then p.2 + (q.2 - p.2) * ((v - p.1) / (q.1 - p.1))
      else interp v (q :: t) := rfl

theorem interp_le_head (v : ℝ) (p : ℝ × ℝ) (l : List (ℝ × ℝ)) (h : v ≤ p.1) :
    interp v (p :: l) = p.2 := by
  cases l with
  | nil => rfl
  | cons q t => rw [interp_cons₂, if_pos h]

theorem interp_ge_last (v : ℝ) :
    ∀ (l : List (ℝ × ℝ)) (p : ℝ × ℝ),
      List.Chain' (fun a b : ℝ × ℝ => a.1 < b.1) (p :: l) →
      (l.getLastD p).1 ≤ v → interp v (p :: l) = (l.getLastD p).2 := by
  intro l
  induction l with
  | nil => intro p _ _; rfl
  | cons q t ih =>
      intro p h hv
      rw [List.getLastD_cons] at hv ⊢
      obtain ⟨hpq, hq⟩ := List.chain'_cons.mp h
      have hqlast : q.1 ≤ (t.getLastD q).1 := chain_head_le_getLastD t q hq
      have h1 : ¬ v ≤ p.1 := by push_neg; linarith
      cases t with
      | nil =>
          simp only [List.getLastD_nil] at hv ⊢
          by_cases h2 : v ≤ q.1
          · have hvq : v = q.1 := le_antisymm h2 hv
            rw [interp_cons₂, if_neg h1, if_pos h2, hvq,
              div_self (sub_ne_zero.mpr hpq.ne')]
            ring
          · rw [interp_cons₂, if_neg h1, if_neg h2]
            rfl
      | cons r t2 =>
          have hqlast2 : q.1 < ((r :: t2).getLastD q).1 := chain_head_lt_getLastD q r t2 hq
          have h2 : ¬ v ≤ q.1 := by push_neg; linarith
          rw [interp_cons₂, if_neg h1, if_neg h2]
          exact ih q hq hv

theorem interp_bracket (v : ℝ) :
    ∀ (i : ℕ) (l : List (ℝ × ℝ)),
      List.Chain' (fun a b : ℝ × ℝ => a.1 < b.1) l →
      i + 1 < l.length → (l.getD i (0, 0)).1 ≤ v → v ≤ (l.getD (i + 1) (0, 0)).1 →
      interp v l = (l.getD i (0, 0)).2 +
        ((l.getD (i + 1) (0, 0)).2 - (l.getD i (0, 0)).2) *
          ((v - (l.getD i (0, 0)).1) / ((l.getD (i + 1) (0, 0)).1 - (l.getD i (0, 0)).1)) := by
  intro i
  induction i with
  | zero =>
      intro l hch hlen h1 h2
      rcases l with _ | ⟨p, _ | ⟨q, t⟩⟩
      · simp at hlen
      · simp at hlen
      · simp only [List.getD_cons_zero, List.getD_cons_succ] at h1 h2 ⊢
        have hpq : (p.1 : ℝ) < q.1 := (List.chain'_cons.mp hch).1
        by_cases hv : v ≤ p.1
        · have hvp : v = p.1 := le_antisymm hv h1
          rw [interp_cons₂, if_pos hv, hvp, sub_self, zero_div, mul_zero, add_zero]
        · rw [interp_cons₂, if_neg hv, if_pos h2]
  | succ n ihn =>
      intro l hch hlen h1 h2
      rcases l with _ | ⟨p, _ | ⟨q, t⟩⟩
      · simp at hlen
      · simp at hlen
      · simp only [List.getD_cons_succ] at h1 h2 ⊢
        obtain ⟨hpq, hch2⟩ := List.chain'_cons.mp hch
        have hlen2 : n + 1 < (q :: t).length := by
          simpa [Nat.succ_lt_succ_iff] using hlen
        have hq_le : q.1 ≤ ((q :: t).getD n (0, 0)).1 := by
          cases n with
          | zero => simp
          | succ m =>
              rw [List.getD_cons_succ]
              refine (chain_lt_getD t q m hch2 ?_).le
              simp only [List.length_cons] at hlen2
              omega
        have hv1 : ¬ v ≤ p.1 := by
          push_neg
          exact lt_of_lt_of_le hpq (le_trans hq_le h1)
        by_cases hv2 : v ≤ q.1
        · cases n with
          | succ m =>
              exfalso
              have hlt : q.1 < (t.getD m (0, 0)).1 := by
                refine chain_lt_getD t q m hch2 ?_
                simp only [List.length_cons] at hlen2
                omega
              rw [List.getD_cons_succ] at h1
              linarith
          | zero =>
              have hvq : v = q.1 := le_antisymm hv2 (by simpa using h1)
              rcases t with _ | ⟨r, t2⟩
              · simp at hlen2
              · simp only [List.getD_cons_zero, List.getD_cons_succ]
                rw [interp_cons₂, if_neg hv1, if_pos hv2, hvq, sub_self, zero_div,
                  mul_zero, add_zero, div_self (sub_ne_zero.mpr hpq.ne')]
                ring
        · rw [interp_cons₂, if_neg hv1, if_neg hv2]
          exact ihn (q :: t) hch2 hlen2 h1 h2

theorem interp_single (v : ℝ) (p : ℝ × ℝ) : interp v [p] = p.2 := rfl

theorem interp_all_zero (v : ℝ) :
    ∀ l : List (ℝ × ℝ), (∀ p ∈ l, p.2 = 0) → interp v l = 0 := by
  intro l
  induction l with
  | nil => intro _; rfl
  | cons p t ih =>
      intro h
      cases t with
      | nil =>
          rw [interp_single]
          exact h p (List.mem_cons_self p [])
      | cons q t2 =>
          rw [interp_cons₂]
          have hp := h p (by simp)
          have hq := h q (by simp)
          have ht : ∀ x ∈ q :: t2, x.2 = 0 := fun x hx => h x (List.mem_cons_of_mem _ hx)
          split_ifs
          · exact hp
          · rw [hp, hq]; ring
          · exact ih ht

theorem scaled_lookup_eq (table : List (ℝ × ℝ)) (rated v : ℝ)
    (hnn : ∀ p ∈ table, 0 ≤ p.2) (hne : table ≠ []) :
    scaled_lookup table rated v = interp v table * (rated / pymax (table.map Prod.snd)) := by
  rw [scaled_lookup, scale_factor_of]
  by_cases hM : 0 < pymax (table.map Prod.snd)
  · rw [if_pos hM]
  · rw [if_neg hM]
    have hmapne : table.map Prod.snd ≠ [] := fun hmap => hne (List.map_eq_nil_iff.mp hmap)
    have hM0 : pymax (table.map Prod.snd) = 0 := by
      refine le_antisymm (not_lt.mp hM) (pymax_nonneg hmapne ?_)
      intro x hx
      obtain ⟨p, hp, rfl⟩ := List.mem_map.mp hx
      exact hnn p hp
    have hz : ∀ p ∈ table, p.2 = 0 := by
      intro p hp
      exact le_antisymm (hM0 ▸ le_pymax_of_mem (List.mem_map_of_mem Prod.snd hp)) (hnn p hp)
    rw [interp_all_zero v table hz]
    ring

/-! Concrete evaluations of the program's power curve. -/

theorem real_power_curve_at_115 : real_power_curve 11.5 = 2000 := by
  rw [real_power_curve, V90_POWER_CURVE]
  norm_num [interp_cons₂, interp_single]

theorem real_power_curve_at_24999 : real_power_curve 24.999 = 2000 := by
  rw [real_power_curve, V90_POWER_CURVE]
  norm_num [interp_cons₂, interp_single]

theorem real_power_curve_at_25 : real_power_curve 25 = 2000 := by
  rw [real_power_curve, V90_POWER_CURVE]
  norm_num [interp_cons₂, interp_single]

theorem real_power_curve_at_2999 : real_power_curve 2.999 = 49.95 := by
  rw [real_power_curve, V90_POWER_CURVE]
  norm_num [interp_cons₂, interp_single]

theorem zipWith_mul_map_fin : ∀ p d : List ℝ,
    List.zipWith EFloat.mul (p.map .fin) (d.map .fin) =
      (List.zipWith (fun a b => a * b) p d).map .fin := by
  intro p
  induction p with
  | nil => intro d; rfl
  | cons a t ih =>
      intro d
      cases d with
      | nil => rfl
      | cons b d2 =>
          simp only [List.map_cons, List.zipWith_cons_cons, EFloat.mul_fin_fin, ih]

theorem expected_power_kw_fin (p d : List ℝ) :
    expected_power_kw p (d.map .fin) =
      .fin (((List.zipWith (fun a b => a * b) p d).map (fun x => x * dv)).sum) := by
  rw [expected_power_kw, zipWith_mul_map_fin, List.map_map]
  have h : ((fun x => EFloat.mul x (.fin dv)) ∘ EFloat.fin) =
      EFloat.fin ∘ (fun x : ℝ => x * dv) := by
    funext a; simp [Function.comp, EFloat.mul_fin_fin]
  rw [h, ← List.map_map, np_sum_map_fin]

theorem zip_sum_eq_finset : ∀ p d : List ℝ, p.length = d.length →
    ((List.zipWith (fun a b => a * b) p d).map (fun x => x * dv)).sum =
      ∑ i ∈ Finset.range p.length, p.getD i 0 * d.getD i 0 * dv := by
  intro p
  induction p with
  | nil => intro d _; simp
  | cons a t ih =>
      intro d h
      cases d with
      | nil => simp at h
      | cons b d2 =>
          simp only [List.zipWith_cons_cons, List.map_cons, List.sum_cons, List.length_cons]
          rw [Finset.sum_range_succ']
          simp only [List.getD_cons_succ, List.getD_cons_zero]
          rw [ih d2 (by simpa using h)]
          ring

theorem zip_sum_nonneg : ∀ p d : List ℝ, (∀ x ∈ p, 0 ≤ x) → (∀ x ∈ d, 0 ≤ x) →
    0 ≤ ((List.zipWith (fun a b => a * b) p d).map (fun x => x * dv)).sum := by
  intro p
  induction p with
  | nil => intro d _ _; simp
  | cons a t ih =>
      intro d hp hd
      cases d with
      | nil => simp
      | cons b d2 =>
          simp only [List.zipWith_cons_cons, List.map_cons, List.sum_cons]
          have hdv : (0 : ℝ) ≤ dv := by rw [dv_eq]; norm_num
          have h1 : 0 ≤ a * b * dv :=
            mul_nonneg (mul_nonneg (hp a (by simp)) (hd b (by simp))) hdv
          exact add_nonneg h1
            (ih d2 (fun x hx => hp x (List.mem_cons_of_mem _ hx))
              (fun x hx => hd x (List.mem_cons_of_mem _ hx)))

theorem zip_scale (g : ℝ → ℝ) (s : ℝ) :
    ∀ l d : List ℝ,
      ((List.zipWith (fun a b => a * b) (l.map (fun v => g v * s)) d).map
        (fun x => x * dv)).sum =
      s * ((List.zipWith (fun a b => a * b) (l.map g) d).map (fun x => x * dv)).sum := by
  intro l
  induction l with
  | nil => intro d; simp
  | cons a t ih =>
      intro d
      cases d with
      | nil => simp
      | cons b d2 =>
          simp only [List.map_cons, List.zipWith_cons_cons, List.sum_cons]
          rw [ih d2]
          ring

theorem pdf_values_length (k c : ℝ) : (pdf_values k c).length = v_values.length := by
  rw [pdf_values]
  split_ifs
  · rw [List.length_map, pdf_values_raw, List.length_map]
  · rw [pdf_values_raw, List.length_map]

theorem cf_pipeline_const (density : List ℝ) (rated : ℝ) (hr : 0 < rated) :
    cf_pipeline density rated = .fin (unscaled_expected density / 2000) := by
  rw [cf_pipeline, expected_power_kw_fin, capacity_factor, if_pos hr,
    EFloat.div_fin_fin _ hr.ne']
  congr 1
  rw [power_values,
    show (fun v => real_power_curve v * scale_factor rated) =
      (fun v => real_power_curve v * (rated / 2000)) from
        funext (fun v => by rw [scale_factor_eq]),
    zip_scale real_power_curve (rated / 2000) v_values density, unscaled_expected]
  field_simp
  ring

/-!
## Claim theorems
-/

/-- C1: for the program's grid step `dv`, every pair of power/density sample
lists of equal length and every rated power, the estimator returns
`expectedPowerKw = Σ_i powerSamples[i] · densitySamples[i] · dv`,
`aepKwh = expectedPowerKw · 8760`, and
`capacityFactor = expectedPowerKw / ratedPowerKw` when `ratedPowerKw > 0`
and `0` otherwise. -/
theorem C1_estimator_formulas (p d : List ℝ) (rated : ℝ) (h : p.length = d.length) :
    expected_power_kw p (d.map .fin) =
      .fin (∑ i ∈ Finset.range p.length, p.getD i 0 * d.getD i 0 * dv) ∧
    aep_kwh (expected_power_kw p (d.map .fin)) =
      .fin ((∑ i ∈ Finset.range p.length, p.getD i 0 * d.getD i 0 * dv) * 8760) ∧
    capacity_factor (expected_power_kw p (d.map .fin)) rated =
      .fin (if 0 < rated then
        (∑ i ∈ Finset.range p.length, p.getD i 0 * d.getD i 0 * dv) / rated
      else 0) := by
  have he := expected_power_kw_fin p d
  rw [zip_sum_eq_finset p d h] at he
  refine ⟨he, ?_, ?_⟩
  · rw [he, aep_kwh, EFloat.mul_fin_fin]
  · rw [he, capacity_factor]
    split_ifs with hr
    · rw [EFloat.div_fin_fin _ hr.ne']
    · rfl

/-- Witness for C1 at concrete samples. -/
theorem C1_estimator_formulas_witness :
    expected_power_kw [1, 2] (([3, 4] : List ℝ).map .fin) =
      .fin (∑ i ∈ Finset.range ([1, 2] : List ℝ).length,
        ([1, 2] : List ℝ).getD i 0 * ([3, 4] : List ℝ).getD i 0 * dv) ∧
    aep_kwh (expected_power_kw [1, 2] (([3, 4] : List ℝ).map .fin)) =
      .fin ((∑ i ∈ Finset.range ([1, 2] : List ℝ).length,
        ([1, 2] : List ℝ).getD i 0 * ([3, 4] : List ℝ).getD i 0 * dv) * 8760) ∧
    capacity_factor (expected_power_kw [1, 2] (([3, 4] : List ℝ).map .fin)) 5 =
      .fin (if (0 : ℝ) < 5 then
        (∑ i ∈ Finset.range ([1, 2] : List ℝ).length,
          ([1, 2] : List ℝ).getD i 0 * ([3, 4] : List ℝ).getD i 0 * dv) / 5
      else 0) :=
  C1_estimator_formulas [1, 2] [3, 4] 5 (by simp)

/-- C2 as stated is false: for the valid Weibull parameters `k = 1/2`,
`c = 1` the renormalized density sum is `nan` (the raw density is `+inf` at
`v = 0`, so the normalization sum is `+inf`, the positivity guard passes, and
the first renormalized sample is `inf / inf = nan`), hence not within `1e-3`
of `1`. -/
theorem C2_counterexample :
    ¬ ∃ q : ℝ, density_sum (1/2) 1 = .fin q ∧ |q - 1| ≤ 1/1000 := by
  rintro ⟨q, hq, -⟩
  rw [density_sum_half_nan] at hq
  exact EFloat.fin_ne_nan q hq.symm

/-- C2 amended: for every Weibull parameter pair with `k ≥ 1` and `c > 0`
(which covers every Rayleigh instance, where `k = 2`), the renormalized
density samples on the program's grid satisfy `Σ density[i] · dv = 1`
exactly (in exact arithmetic), in particular within `1e-3` of `1`. -/
theorem C2_amended (k c : ℝ) (hk : 1 ≤ k) (hc : 0 < c) :
    ∃ q : ℝ, density_sum k c = .fin q ∧ |q - 1| ≤ 1/1000 :=
  ⟨1, density_sum_eq_one hk hc, by norm_num⟩

/-- Witness for C2 amended at the Hamburg parameters `k = 2.3`, `c = 8`. -/
theorem C2_amended_witness :
    ∃ q : ℝ, density_sum 2.3 8 = .fin q ∧ |q - 1| ≤ 1/1000 :=
  C2_amended 2.3 8 (by norm_num) (by norm_num)

/-- C3 as stated is false: the pipeline also rescales the power curve by
`ratedPowerKw / 2000`, so the capacity factor is unchanged — with the
distribution held fixed, the capacity factors at rated powers 1000 and 2000
are equal, not strictly ordered. -/
theorem C3_counterexample :
    ¬ ∃ a b : ℝ, cf_pipeline (List.replicate 61 (1/30)) 2000 = .fin a ∧
      cf_pipeline (List.replicate 61 (1/30)) 1000 = .fin b ∧ a < b := by
  rintro ⟨a, b, ha, hb, hab⟩
  rw [cf_pipeline_const _ _ (by norm_num)] at ha hb
  injection ha with h1
  injection hb with h2
  rw [← h1, ← h2] at hab
  exact lt_irrefl _ hab

/-- C3 amended: holding the density samples fixed, the capacity factor is
independent of `ratedPowerKw` (for positive rated powers): the rated power
cancels between the curve rescaling and the final division. -/
theorem C3_amended (density : List ℝ) (r1 r2 : ℝ) (h1 : 0 < r1) (h2 : 0 < r2) :
    cf_pipeline density r1 = cf_pipeline density r2 := by
  rw [cf_pipeline_const density r1 h1, cf_pipeline_const density r2 h2]

/-- Witness for C3 amended at concrete density samples and rated powers. -/
theorem C3_amended_witness :
    cf_pipeline (List.replicate 61 (1/30)) 100 = cf_pipeline (List.replicate 61 (1/30)) 3000 :=
  C3_amended (List.replicate 61 (1/30)) 100 3000 (by norm_num) (by norm_num)

/-- C4 as stated is false: the program has no analytic (piecewise cubic)
power curve and never uses the cut-in/cut-out inputs; its lookup curve with
`ratedPowerKw = 2000` returns `2000` (not `0`) at `v = 25.0` and `49.95`
(not `0`) at `v = 2.999`. -/
theorem C4_counterexample :
    real_power_curve 25 * scale_factor 2000 = 2000 ∧
    real_power_curve 2.999 * scale_factor 2000 = 49.95 ∧
    (2000 : ℝ) ≠ 0 ∧ (49.95 : ℝ) ≠ 0 := by
  refine ⟨?_, ?_, by norm_num, by norm_num⟩
  · rw [real_power_curve_at_25, scale_factor_eq]; norm_num
  · rw [real_power_curve_at_2999, scale_factor_eq]; norm_num

/-- C4 amended: on the program's actual (lookup-table) power curve with
`ratedPowerKw = 2000`, the power is `2000.0` at `v = 11.5` and `v = 24.999`
as claimed, but `2000.0` at `v = 25.0` and `49.95` at `v = 2.999`: the table
is clamped above 20 m/s and interpolates between (2,0) and (3,50) near 3 m/s;
no cut-in/cut-out shutdown exists. -/
theorem C4_amended :
    real_power_curve 11.5 * scale_factor 2000 = 2000 ∧
    real_power_curve 24.999 * scale_factor 2000 = 2000 ∧
    real_power_curve 25 * scale_factor 2000 = 2000 ∧
    real_power_curve 2.999 * scale_factor 2000 = 49.95 := by
  refine ⟨?_, ?_, ?_, ?_⟩
  · rw [real_power_curve_at_115, scale_factor_eq]; norm_num
  · rw [real_power_curve_at_24999, scale_factor_eq]; norm_num
  · rw [real_power_curve_at_25, scale_factor_eq]; norm_num
  · rw [real_power_curve_at_2999, scale_factor_eq]; norm_num

/-- C5: for every lookup table with strictly increasing speeds and
non-negative powers, the scaled lookup query clamps to the first power below
the table range, clamps to the last power above it, interpolates linearly
between bracketing points inside it, and every returned value carries the
factor `ratedPowerKw / max(P_i)`. -/
theorem C5_lookup_interpolation (table : List (ℝ × ℝ)) (rated v : ℝ)
    (hchain : List.Chain' (fun a b : ℝ × ℝ => a.1 < b.1) table)
    (hnn : ∀ p ∈ table, 0 ≤ p.2) (hne : table ≠ []) :
    (v ≤ (table.headD (0, 0)).1 →
      scaled_lookup table rated v =
        (table.headD (0, 0)).2 * (rated / pymax (table.map Prod.snd))) ∧
    ((table.getLastD (0, 0)).1 ≤ v →
      scaled_lookup table rated v =
        (table.getLastD (0, 0)).2 * (rated / pymax (table.map Prod.snd))) ∧
    (∀ i : ℕ, i + 1 < table.length → (table.getD i (0, 0)).1 ≤ v →
      v ≤ (table.getD (i + 1) (0, 0)).1 →
      scaled_lookup table rated v =
        ((table.getD i (0, 0)).2 +
          ((table.getD (i + 1) (0, 0)).2 - (table.getD i (0, 0)).2) *
            ((v - (table.getD i (0, 0)).1) /
              ((table.getD (i + 1) (0, 0)).1 - (table.getD i (0, 0)).1))) *
        (rated / pymax (table.map Prod.snd))) := by
  obtain ⟨p, l, rfl⟩ : ∃ p l, table = p :: l := by
    cases table with
    | nil => exact absurd rfl hne
    | cons p l => exact ⟨p, l, rfl⟩
  refine ⟨?_, ?_, ?_⟩
  · intro hv
    rw [List.headD_cons] at hv ⊢
    rw [scaled_lookup_eq _ _ _ hnn hne, interp_le_head v p l hv]
  · intro hv
    rw [List.getLastD_cons] at hv ⊢
    rw [scaled_lookup_eq _ _ _ hnn hne, interp_ge_last v l p hchain hv]
  · intro i hi hv1 hv2
    rw [scaled_lookup_eq _ _ _ hnn hne, interp_bracket v i (p :: l) hchain hi hv1 hv2]

/-- Witness for C5 at a concrete two-point table. -/
theorem C5_lookup_interpolation_witness :
    ((1 / 2 : ℝ) ≤ (([((0 : ℝ), (0 : ℝ)), (1, 100)]).headD (0, 0)).1 →
      scaled_lookup [((0 : ℝ), (0 : ℝ)), (1, 100)] 200 (1 / 2) =
        (([((0 : ℝ), (0 : ℝ)), (1, 100)]).headD (0, 0)).2 *
          (200 / pymax (([((0 : ℝ), (0 : ℝ)), (1, 100)]).map Prod.snd))) ∧
    ((([((0 : ℝ), (0 : ℝ)), (1, 100)]).getLastD (0, 0)).1 ≤ (1 / 2 : ℝ) →
      scaled_lookup [((0 : ℝ), (0 : ℝ)), (1, 100)] 200 (1 / 2) =
        (([((0 : ℝ), (0 : ℝ)), (1, 100)]).getLastD (0, 0)).2 *
          (200 / pymax (([((0 : ℝ), (0 : ℝ)), (1, 100)]).map Prod.snd))) ∧
    (∀ i : ℕ, i + 1 < ([((0 : ℝ), (0 : ℝ)), (1, 100)]).length →
      (([((0 : ℝ), (0 : ℝ)), (1, 100)]).getD i (0, 0)).1 ≤ (1 / 2 : ℝ) →
      (1 / 2 : ℝ) ≤ (([((0 : ℝ), (0 : ℝ)), (1, 100)]).getD (i + 1) (0, 0)).1 →
      scaled_lookup [((0 : ℝ), (0 : ℝ)), (1, 100)] 200 (1 / 2) =
        ((([((0 : ℝ), (0 : ℝ)), (1, 100)]).getD i (0, 0)).2 +
          ((([((0 : ℝ), (0 : ℝ)), (1, 100)]).getD (i + 1) (0, 0)).2 -
            (([((0 : ℝ), (0 : ℝ)), (1, 100)]).getD i (0, 0)).2) *
            (((1 / 2 : ℝ) - (([((0 : ℝ), (0 : ℝ)), (1, 100)]).getD i (0, 0)).1) /
              ((([((0 : ℝ), (0 : ℝ)), (1, 100)]).getD (i + 1) (0, 0)).1 -
                (([((0 : ℝ), (0 : ℝ)), (1, 100)]).getD i (0, 0)).1))) *
        (200 / pymax (([((0 : ℝ), (0 : ℝ)), (1, 100)]).map Prod.snd))) :=
  C5_lookup_interpolation [((0 : ℝ), (0 : ℝ)), (1, 100)] 200 (1 / 2)
    (by norm_num [List.chain'_cons, List.chain'_singleton])
    (by norm_num) (by simp)

/-- C6 as stated is false: at the first grid point `v = 0`, for the valid
Weibull parameters `k = 1/2 < 1`, `c = 1`, `weibull_pdf` evaluates
`0.0 ** (-1/2)` and produces `+inf` — no special-casing of `v = 0` exists in
the code. -/
theorem C6_counterexample :
    (0 : ℝ) ∈ v_values ∧
      ¬ ∃ r : ℝ, weibull_pdf (.fin 0) (.fin (1/2)) (.fin 1) = .fin r := by
  refine ⟨zero_mem_v_values, ?_⟩
  rintro ⟨r, hr⟩
  rw [weibull_pdf_zero_inf (by norm_num) (by norm_num) one_pos] at hr
  exact EFloat.fin_ne_inf r hr.symm

/-- C6 amended: for `k ≥ 1` (and `c > 0`) the density evaluation is finite at
every grid point, and at `v = 0` it returns `0` whenever `k > 1` — not by a
special case but because `0 ** (k-1) = 0` there; for `k < 1` the value at
`v = 0` is `+inf` (see the counterexample). -/
theorem C6_amended (k c : ℝ) (hk : 1 ≤ k) (hc : 0 < c) :
    (∀ v ∈ v_values, ∃ r : ℝ, weibull_pdf (.fin v) (.fin k) (.fin c) = .fin r) ∧
    (1 < k → weibull_pdf (.fin 0) (.fin k) (.fin c) = .fin 0) := by
  constructor
  · intro v hv
    exact ⟨_, weibull_pdf_fin_of_one_le (mem_v_values_nonneg hv) hk hc⟩
  · intro hk1
    rw [weibull_pdf_fin_of_one_le le_rfl hk hc]
    congr 1
    rw [weibull_pdf_real, zero_div, Real.zero_rpow (show k - 1 ≠ 0 by linarith)]
    ring

/-- Witness for C6 amended at `k = 2`, `c = 8`. -/
theorem C6_amended_witness :
    (∀ v ∈ v_values, ∃ r : ℝ, weibull_pdf (.fin v) (.fin 2) (.fin 8) = .fin r) ∧
    ((1 : ℝ) < 2 → weibull_pdf (.fin 0) (.fin 2) (.fin 8) = .fin 0) :=
  C6_amended 2 8 (by norm_num) (by norm_num)

/-- C7 as stated is false: the code performs no parameter validation and has
no `InvalidDistributionParams` failure path; with the invalid shape
`k = -1` (and `c = 5`) the analysis still produces a full-length YieldResult
and the density evaluation proceeds to a finite numerical value at the grid
point `v = 0.5`. -/
theorem C7_counterexample :
    (analyze (-1) 5 8 2000 3 25 true).pdf_values.length = v_values.length ∧
    ∃ r : ℝ, weibull_pdf (.fin 0.5) (.fin (-1)) (.fin 5) = .fin r := by
  constructor
  · exact pdf_values_length _ _
  · exact ⟨_, weibull_pdf_fin_of_pos (-1) (by norm_num) (by norm_num)⟩

/-- C7 amended: for every parameter set with `k ≤ 0`, `c ≤ 0` or
`meanSpeed ≤ 0`, no error is raised: the pipeline runs to completion and
produces a YieldResult with one density sample and one power sample per grid
point. -/
theorem C7_amended (loc_k loc_c avg_wind rated ci co : ℝ) (u : Bool)
    (hinvalid : loc_k ≤ 0 ∨ loc_c ≤ 0 ∨ avg_wind ≤ 0) :
    (analyze loc_k loc_c avg_wind rated ci co u).pdf_values.length = v_values.length ∧
    (analyze loc_k loc_c avg_wind rated ci co u).power_values.length = v_values.length := by
  constructor
  · exact pdf_values_length _ _
  · show (power_values rated).length = v_values.length
    rw [power_values, List.length_map]

/-- Witness for C7 amended at `k = 0`. -/
theorem C7_amended_witness :
    (analyze 0 1 1 2000 3 25 true).pdf_values.length = v_values.length ∧
    (analyze 0 1 1 2000 3 25 true).power_values.length = v_values.length :=
  C7_amended 0 1 1 2000 3 25 true (Or.inl le_rfl)

/-- C8: the Rayleigh-mode run (`use_weibull = false`) with mean speed `m`
produces exactly the density samples of the Weibull evaluation with `k = 2`,
`c = m · √(2/π)` — the code's Rayleigh branch is literally that substitution
into the shared Weibull pipeline. -/
theorem C8_rayleigh_eq_weibull (m loc_k loc_c rated ci co : ℝ) (hm : 0 < m) :
    (analyze loc_k loc_c m rated ci co false).pdf_values =
      pdf_values 2 (m * Real.sqrt (2 / Real.pi)) := rfl

/-- Witness for C8 at `m = 1` (with the Kolkata location parameters supplied
and ignored, since Weibull mode is off). -/
theorem C8_rayleigh_eq_weibull_witness :
    (analyze 1.7 4.5 1 2000 3 25 false).pdf_values =
      pdf_values 2 (1 * Real.sqrt (2 / Real.pi)) :=
  C8_rayleigh_eq_weibull 1 1.7 4.5 2000 3 25 (by norm_num)

/-- C9: for non-negative power and density samples, the expected power is a
non-negative finite value and the capacity factor is non-negative; when
`ratedPowerKw > 0` the capacity factor equals `expectedPowerKw / ratedPowerKw`
exactly — no clamping at 1 is applied. -/
theorem C9_invariants (p d : List ℝ) (rated : ℝ)
    (hp : ∀ x ∈ p, 0 ≤ x) (hd : ∀ x ∈ d, 0 ≤ x) :
    ∃ e : ℝ, expected_power_kw p (d.map .fin) = .fin e ∧ 0 ≤ e ∧
      ∃ cf : ℝ, capacity_factor (expected_power_kw p (d.map .fin)) rated = .fin cf ∧
        0 ≤ cf ∧ (0 < rated → cf = e / rated) := by
  refine ⟨_, expected_power_kw_fin p d, zip_sum_nonneg p d hp hd, ?_⟩
  rw [expected_power_kw_fin p d, capacity_factor]
  split_ifs with hr
  · rw [EFloat.div_fin_fin _ hr.ne']
    exact ⟨_, rfl, div_nonneg (zip_sum_nonneg p d hp hd) hr.le, fun _ => rfl⟩
  · exact ⟨0, rfl, le_refl 0, fun h => absurd h hr⟩

/-- Witness for C9 at concrete samples (rated power 1: the unclamped capacity
factor exceeds 1 there). -/
theorem C9_invariants_witness :
    ∃ e : ℝ, expected_power_kw [8, 8] (([3, 4] : List ℝ).map .fin) = .fin e ∧ 0 ≤ e ∧
      ∃ cf : ℝ, capacity_factor (expected_power_kw [8, 8] (([3, 4] : List ℝ).map .fin)) 1 =
        .fin cf ∧ 0 ≤ cf ∧ ((0 : ℝ) < 1 → cf = e / 1) :=
  C9_invariants [8, 8] [3, 4] 1 (by norm_num) (by norm_num)

/-- C10: two runs differing only in the cut-in and cut-out inputs produce
identical outputs — the numerical section of the program never reads them. -/
theorem C10_cut_in_out_no_influence (loc_k loc_c avg_wind rated ci co ci' co' : ℝ)
    (u : Bool) :
    analyze loc_k loc_c avg_wind rated ci co u =
      analyze loc_k loc_c avg_wind rated ci' co' u := rfl
